import Mathlib

/-!
Verification of the LeanVSCode extension's project-synchronization layer.

The definitions below are a shallow embedding of the relevant functions of
src/project.ts, src/api.ts and src/extension.ts: project-name
normalization, remote-project resolution by name, directory
disambiguation, file download with and without overwrite, the
save-to-cloud path, the in-process project registry, active-file lookup,
and the authenticated request-header construction.  The filesystem is
modelled as a map from paths to optional contents, the remote file store
likewise; the SHA-256 primitive of the crypto library is a parameter of
the header construction.
-/

namespace LeanVSCode

/-- Remote project record as returned by the API (api.ts, interface
Project).  The `modified` timestamp is compared numerically, as the
JavaScript Date comparison in project.ts does. -/
structure Project where
  projectId : Nat
  name : String
  modified : Nat
  deriving Repr, DecidableEq

/-- Remote project file as returned by files/read (api.ts, interface
ProjectFile); the fields used by the download path. -/
structure ProjectFile where
  name : String
  content : String
  deriving Repr, DecidableEq

/-- Local project file (project.ts, class QCProjectFile): local path,
in-memory content, synced-to-cloud flag. -/
structure QCProjectFile where
  filePath : String
  content : String
  synced : Bool
  deriving Repr, DecidableEq

/-- The fields of project.ts class QCAlgorithmProject that the registry
and lookups read: the local directory, the requested project name and
the file set. -/
structure QCAlgorithmProject where
  projectPath : String
  projectName : String
  files : List QCProjectFile
  deriving Repr, DecidableEq

/-- Active editor document (the fields of vscode's TextDocument read by
getOpenProject/getOpenFile). -/
structure Document where
  fileName : String
  isUntitled : Bool
  deriving Repr, DecidableEq

/-- The character class of the normalization regex in
QCAlgorithmProject.normalizeProjectName: `[a-zA-Z0-9_ .-]`. -/
def isAllowedProjectChar (c : Char) : Bool :=
  (decide ('a' ≤ c) && decide (c ≤ 'z')) ||
  (decide ('A' ≤ c) && decide (c ≤ 'Z')) ||
  (decide ('0' ≤ c) && decide (c ≤ '9')) ||
  c == '_' || c == ' ' || c == '.' || c == '-'

/-- project.ts QCAlgorithmProject.normalizeProjectName: the global
replacement of every character outside `[a-zA-Z0-9_ .-]` by the empty
string, i.e. the filter keeping exactly the allowed characters. -/
def normalizeProjectName (projectName : String) : String :=
  ⟨projectName.data.filter isAllowedProjectChar⟩

/-- Local directory derived for a project in the constructor of
QCAlgorithmProject: the workspace root itself when the
workspaceAsRootPath option is set, otherwise root/normalizedName. -/
def projectPathFor (root : String) (workspaceAsRootPath : Bool) (projectName : String) : String :=
  if workspaceAsRootPath then root else root ++ "/" ++ normalizeProjectName projectName

/-- The synchronous validation prefix of the QCAlgorithmProject
constructor (project.ts lines 61 to 77): compute the normalized name and
the project path, and reject the name before any directory or binding is
created when the normalization result is empty. -/
def initProject (root : String) (workspaceAsRootPath : Bool) (projectName : String) :
    Except String QCAlgorithmProject :=
  let normalizedProjectName := normalizeProjectName projectName
  let projectPath := projectPathFor root workspaceAsRootPath projectName
  if normalizedProjectName = "" then
    .error "The project name you provided only contains special characters and can not be initialized"
  else
    .ok ⟨projectPath, projectName, []⟩

/-- The reduce callback of the download branch (project.ts lines 126 to
131): keep the current project only when it is strictly more recently
modified, so the first project encountered wins ties. -/
def latestOf (prevProject currProject : Project) : Project :=
  if currProject.modified > prevProject.modified then currProject else prevProject

/-- The selection block of the download branch of the QCAlgorithmProject
constructor (project.ts lines 121 to 135), applied to the filtered
matches: with more than one match, reduce with latestOf; otherwise take
the first element, which is absent when the list is empty. -/
def selectProject (found : List Project) : Option Project :=
  if found.length > 1 then
    match found with
    | [] => none
    | x :: xs => some (xs.foldl latestOf x)
  else
    found.head?

/-- Remote-project resolution by name (project.ts lines 120 to 139):
filter the listed projects to the exact name matches, select by recency,
and fail when nothing was selected. -/
def resolveProject (projects : List Project) (projectName : String) : Except String Project :=
  match selectProject (projects.filter fun project => project.name == projectName) with
  | some project => .ok project
  | none => .error "Project is null even though we provided a valid project name"

/-- Local filesystem model: a map from paths to the contents of the file
at that path, none when no file exists there. -/
abbrev Disk := String → Option String

/-- fs.writeFileSync: the disk afterwards holds the given content at the
given path and is unchanged elsewhere. -/
def diskWrite (d : Disk) (p : String) (c : String) : Disk :=
  fun q => if q = p then some c else d q

/-- QCProjectFile.createFile: do nothing when a file already exists at
the path, otherwise write the content; the returned flag says whether a
write happened. -/
def createFile (d : Disk) (f : QCProjectFile) : Disk × Bool :=
  if (d f.filePath).isSome then (d, false)
  else (diskWrite d f.filePath f.content, true)

/-- QCProjectFile.createFileOverwrite: write unconditionally. -/
def createFileOverwrite (d : Disk) (f : QCProjectFile) : Disk :=
  diskWrite d f.filePath f.content

/-- QCProjectFile.reloadFileFromDisk: replace the in-memory content with
the on-disk content; fs.readFileSync fails when the file is absent. -/
def reloadFileFromDisk (d : Disk) (f : QCProjectFile) : Option QCProjectFile :=
  (d f.filePath).map fun c => { f with content := c }

/-- QCAlgorithmProject.downloadProjectFiles (project.ts lines 459 to
476): for each remote file build a QCProjectFile at projectPath/name
with the remote content and the synced flag set, write it with or
without overwrite, and push it onto the file list. -/
def downloadProjectFiles (projectPath : String) (remoteFiles : List ProjectFile)
    (overwrite : Bool) (d : Disk) (files : List QCProjectFile) :
    Disk × List QCProjectFile :=
  remoteFiles.foldl
    (fun st file =>
      let projectFile : QCProjectFile := ⟨projectPath ++ "/" ++ file.name, file.content, true⟩
      (if overwrite then createFileOverwrite st.1 projectFile else (createFile st.1 projectFile).1,
       st.2 ++ [projectFile]))
    (d, files)

/-- The disposition prompt of the download branch (project.ts lines 143
to 150): Skip and the absence of a response mean no overwrite, any other
answer means overwrite. -/
def overwriteDisposition (selection : Option String) : Bool :=
  if selection = some "Skip" ∨ selection = none then false else true

/-- Splitting a character list on the path separator, accumulating the
current segment; the semantics of splitting a string on the separator as
the JavaScript split does. -/
def splitOnSep : List Char → List Char → List String
  | [], acc => [⟨acc.reverse⟩]
  | c :: cs, acc => if c = '/' then (⟨acc.reverse⟩ : String) :: splitOnSep cs [] else splitOnSep cs (c :: acc)

/-- Path segments of a string: the string split on the separator. -/
def splitPath (s : String) : List String :=
  splitOnSep s.data []

/-- path.basename as used by saveFileToCloud: the final path segment. -/
def basename (p : String) : String :=
  (splitPath p).getLastD p

/-- Outcome of one saveFileToCloud run: the file state afterwards, the
remote store afterwards, the content sent in a files/update request when
one was issued, and the error list surfaced to the user when the server
reported failure. -/
structure SaveResult where
  file : QCProjectFile
  remote : Disk
  uploaded : Option String
  surfaced : Option (List String)

/-- The shared upload continuation of saveFileToCloud (project.ts lines
430 to 437 and 443 to 450): issue the files/update request carrying the
current content; on success mark the file synced and the remote store
confirmed with that content, on failure surface the server's error list
and leave the file untouched. -/
def uploadStep (success : Bool) (errors : List String) (remote : Disk)
    (projectFile : QCProjectFile) : SaveResult :=
  let fileName := basename projectFile.filePath
  if success then
    { file := { projectFile with synced := true },
      remote := diskWrite remote fileName projectFile.content,
      uploaded := some projectFile.content,
      surfaced := none }
  else
    { file := projectFile, remote := remote,
      uploaded := some projectFile.content, surfaced := some errors }

/-- QCAlgorithmProject.saveFileToCloud (project.ts lines 425 to 453):
reload the file from disk first; then upload silently when the
uploadSkipDialog option is set, upload after a Yes answer to the
confirmation prompt, and do nothing on any other answer. -/
def saveFileToCloud (skipDialog : Bool) (selection : Option String)
    (success : Bool) (errors : List String) (d : Disk) (remote : Disk)
    (projectFile : QCProjectFile) : Option SaveResult :=
  (reloadFileFromDisk d projectFile).map fun reloaded =>
    if skipDialog then uploadStep success errors remote reloaded
    else if selection = some "Yes" then uploadStep success errors remote reloaded
    else { file := reloaded, remote := remote, uploaded := none, surfaced := none }

/-- The spec's invariant for a local file against the remote store: when
the synced flag is set, the remote store holds exactly the in-memory
content under the file's basename. -/
def syncInvariant (remote : Disk) (f : QCProjectFile) : Prop :=
  f.synced = true → remote (basename f.filePath) = some f.content

/-- Registration of a binding in the in-process registry
(extension.ts/project.ts: Projects.push in createOrDownloadProject). -/
def registerProject (projects : List QCAlgorithmProject) (project : QCAlgorithmProject) :
    List QCAlgorithmProject :=
  projects ++ [project]

/-- Candidate directory with a numeric disambiguation suffix, as built
by the template string in the second constructor variant. -/
def suffixPath (base : String) (i : Nat) : String :=
  base ++ "_" ++ Nat.repr i

/-- The error thrown when the disambiguation loop runs out of tries. -/
def occupiedError : String :=
  "Project directory names are occupied (max tries exceeded). Please rename a folder and run this again"

/-- The disambiguation while-loop of the second constructor variant
(project.ts lines 567 to 573): starting from the given counter, advance
while the suffixed directory exists, throwing once the counter exceeds
20 with the directory still occupied. -/
def searchFromSuffix (existsDir : String → Bool) (base : String) (i : Nat) :
    Except String Nat :=
  if existsDir (suffixPath base i) then
    if i > 20 then .error occupiedError
    else searchFromSuffix existsDir base (i + 1)
  else
    .ok i
termination_by 21 - i
decreasing_by omega

/-- The directory-disambiguation block of the second constructor variant
(project.ts lines 565 to 577): keep the path when its directory is
free, otherwise append the first free numeric suffix found by the
loop. -/
def resolveProjectPath (existsDir : String → Bool) (projectPath : String) :
    Except String String :=
  if existsDir projectPath then
    (searchFromSuffix existsDir projectPath 1).map fun i => suffixPath projectPath i
  else
    .ok projectPath

/-- The parent-directory computation of getOpenProject (project.ts lines
375 to 382): split the file name on the separator, drop the last
segment, rejoin. -/
def parentDir (fileName : String) : String :=
  String.intercalate "/" (splitPath fileName).dropLast

/-- QCAlgorithmProject.getOpenProject (project.ts lines 362 to 389):
with no active editor or an untitled document, none; otherwise the first
registered project whose projectPath equals the active file's parent
directory. -/
def getOpenProject (active : Option Document) (projects : List QCAlgorithmProject) :
    Option QCAlgorithmProject :=
  match active with
  | none => none
  | some doc =>
    if doc.isUntitled then none
    else projects.find? fun project => project.projectPath == parentDir doc.fileName

/-- QCAlgorithmProject.getOpenFile (project.ts lines 391 to 405): none
without a project or an active editor, otherwise the project file whose
path equals the active document's file name. -/
def getOpenFile (project : Option QCAlgorithmProject) (active : Option Document) :
    Option QCProjectFile :=
  match project, active with
  | none, _ => none
  | _, none => none
  | some project, some doc => project.files.find? fun file => file.filePath == doc.fileName

/-- UTF-8 encoding of one character, byte values as naturals (the
encoding Buffer.from applies to the authorization string). -/
def utf8Bytes (c : Char) : List Nat :=
  let n := c.toNat
  if n < 128 then [n]
  else if n < 2048 then [192 + n / 64, 128 + n % 64]
  else if n < 65536 then [224 + n / 4096, 128 + (n / 64) % 64, 128 + n % 64]
  else [240 + n / 262144, 128 + (n / 4096) % 64, 128 + (n / 64) % 64, 128 + n % 64]

/-- UTF-8 bytes of a string. -/
def strBytes (s : String) : List Nat :=
  s.data.flatMap utf8Bytes

/-- The base64 alphabet of RFC 4648, indexed 0 to 63. -/
def base64Alphabet : List Char :=
  "ABCDEFGHIJKLMNOPQRSTUVWXYZabcdefghijklmnopqrstuvwxyz0123456789+/".data

/-- Character of one 6-bit group. -/
def b64Char (n : Nat) : Char :=
  base64Alphabet.getD n 'A'

/-- Standard padded base64 of a byte sequence, as produced by
Buffer.toString with the base64 encoding. -/
def base64Encode : List Nat → String
  | [] => ""
  | [b1] =>
    ⟨[b64Char (b1 / 4), b64Char (b1 % 4 * 16), '=', '=']⟩
  | [b1, b2] =>
    ⟨[b64Char (b1 / 4), b64Char (b1 % 4 * 16 + b2 / 16), b64Char (b2 % 16 * 4), '=']⟩
  | b1 :: b2 :: b3 :: rest =>
    (⟨[b64Char (b1 / 4), b64Char (b1 % 4 * 16 + b2 / 16),
       b64Char (b2 % 16 * 4 + b3 / 64), b64Char (b3 % 64)]⟩ : String)
      ++ base64Encode rest

/-- LeanApi.getTimestamp: the millisecond clock value floored to
seconds; natural division is the floor, so the value carries no
fractional component. -/
def getTimestamp (nowMs : Nat) : Nat :=
  nowMs / 1000

/-- LeanApi.createHash (api.ts lines 985 to 995): the hex SHA-256 digest
of the literal concatenation of the API key, a colon and the decimal
timestamp in seconds, paired with that timestamp string.  The SHA-256
primitive of the crypto library is passed in as a function. -/
def createHash (sha256hex : String → String) (apiKey : String) (nowMs : Nat) :
    String × String :=
  let timestamp := Nat.repr (getTimestamp nowMs)
  (sha256hex (apiKey ++ ":" ++ timestamp), timestamp)

/-- The two authentication headers every request carries. -/
structure RequestHeaders where
  authorization : String
  timestamp : String
  deriving Repr, DecidableEq

/-- The header construction of LeanApi.request (api.ts lines 951 to
961): base64-encode userId colon digest, put it in the Authorization
header behind the Basic scheme marker, and put the same timestamp that
went into the digest in the Timestamp header. -/
def requestHeaders (sha256hex : String → String) (apiKey userId : String) (nowMs : Nat) :
    RequestHeaders :=
  let authHashTimestamp := createHash sha256hex apiKey nowMs
  let authHash := base64Encode (strBytes (userId ++ ":" ++ authHashTimestamp.1))
  { authorization := "Basic " ++ authHash, timestamp := authHashTimestamp.2 }

/- ### Concrete sample objects used by witnesses and counterexamples -/

/-- A local disk holding one project file with content A. -/
def sampleDisk : Disk :=
  fun q => if q = "proj/main.py" then some "A" else none

/-- The remote store holding content B for the same file. -/
def sampleRemoteStore : Disk :=
  fun q => if q = "main.py" then some "B" else none

/-- The files/read response supplying content B for the same file. -/
def sampleRemoteFiles : List ProjectFile :=
  [⟨"main.py", "B"⟩]

/-- The file entry produced for that download. -/
def sampleFile : QCProjectFile :=
  ⟨"proj/main.py", "B", true⟩

/-- Existence predicate with directories foo and foo_1 taken, foo_2 free. -/
def exFoo : String → Bool :=
  fun s => s == "foo" || s == "foo_1"

/-- Existence predicate with foo and the first twenty suffixed
directories all taken. -/
def exOccupied : String → Bool :=
  fun s => s == "foo" || (List.range 20).any fun i => s == suffixPath "foo" (i + 1)

/-- A registered binding and a document nested two directory levels
inside it. -/
def c7Binding : QCAlgorithmProject :=
  ⟨"/ws/proj", "proj", [⟨"/ws/proj/sub/main.py", "x", true⟩]⟩

/-- The active document two levels below the binding's directory. -/
def c7Doc : Document :=
  ⟨"/ws/proj/sub/main.py", false⟩

/-- A binding as produced by downloading project X into workspace /ws. -/
def c8Binding : QCAlgorithmProject :=
  ⟨"/ws/X", "X", []⟩

/-- A stand-in hex digest function for concrete header evaluation. -/
def c9hash : String → String :=
  fun _ => "h"

/-- The save outcome of a silent successful save of sampleFile after its
reload from sampleDisk. -/
def c4SaveResult : SaveResult :=
  ⟨⟨"proj/main.py", "A", true⟩, diskWrite sampleRemoteStore "main.py" "A", some "A", none⟩

/-- A file whose content equals both its disk copy and its remote copy:
nothing changed since the last successful sync. -/
def c5File : QCProjectFile :=
  ⟨"proj/main.py", "A", true⟩

/-- A remote store already holding the same content A. -/
def sampleRemoteStoreA : Disk :=
  fun q => if q = "main.py" then some "A" else none

/-- The save outcome of a silent successful save of c5File: the upload
is issued even though nothing changed. -/
def c5Result : SaveResult :=
  ⟨⟨"proj/main.py", "A", true⟩, diskWrite sampleRemoteStoreA "main.py" "A", some "A", none⟩

/-- A document directly inside the registered binding's directory. -/
def c7DirectDoc : Document :=
  ⟨"/ws/proj/main.py", false⟩

/-- An untitled document. -/
def c7UntitledDoc : Document :=
  ⟨"Untitled-1", true⟩

/-- A document outside every registered directory. -/
def c7OutsideDoc : Document :=
  ⟨"/other/dir/file.py", false⟩

/-- The download branch of createOrDownloadProject (project.ts lines 260
to 267) combined with the resolution step of the constructor it invokes
(lines 120 to 139): the constructor's synchronous prefix either throws
on an empty normalized name (no registration) or yields the binding,
which Projects.push registers immediately; the listProjects-based
resolution then runs in the asynchronous promise chain, and its error is
caught and displayed, leaving the already-registered binding in place
with no project id resolved and no files downloaded. -/
def downloadProjectByName (registry : List QCAlgorithmProject) (root : String)
    (workspaceAsRootPath : Bool) (projectName : String)
    (remoteProjects : List Project) :
    Except String (List QCAlgorithmProject × Except String Project) :=
  (initProject root workspaceAsRootPath projectName).map fun binding =>
    (registerProject registry binding, resolveProject remoteProjects projectName)

end LeanVSCode

namespace LeanVSCode

/- ## Helper lemmas -/

/-- Filtering twice with the same predicate filters once. -/
theorem filter_idem {α : Type _} (p : α → Bool) (l : List α) :
    (l.filter p).filter p = l.filter p := by
  induction l with
  | nil => rfl
  | cons a l ih =>
    cases hp : p a <;> simp [List.filter_cons, hp, ih]

/-- Mapped exceptions are ok exactly when the argument is ok. -/
theorem except_map_ok {ε α β : Type _} (f : α → β) (e : Except ε α) (b : β) :
    e.map f = .ok b ↔ ∃ a, e = .ok a ∧ f a = b := by
  cases e <;> simp [Except.map]

/-- Mapped exceptions keep their errors. -/
theorem except_map_error {ε α β : Type _} (f : α → β) (e : Except ε α) (err : ε) :
    e.map f = .error err ↔ e = .error err := by
  cases e <;> simp [Except.map]

/-- Reading the written path returns the written content. -/
theorem diskWrite_same (d : Disk) (p c : String) : diskWrite d p c p = some c := by
  simp [diskWrite]

/-- Reading any other path is unchanged by a write. -/
theorem diskWrite_other (d : Disk) {p q : String} (c : String) (h : q ≠ p) :
    diskWrite d p c q = d q := by
  simp [diskWrite, h]

/-- One step of the download fold. -/
theorem downloadProjectFiles_cons (pp : String) (f : ProjectFile) (fs : List ProjectFile)
    (ow : Bool) (d : Disk) (files : List QCProjectFile) :
    downloadProjectFiles pp (f :: fs) ow d files =
      downloadProjectFiles pp fs ow
        (if ow then createFileOverwrite d ⟨pp ++ "/" ++ f.name, f.content, true⟩
         else (createFile d ⟨pp ++ "/" ++ f.name, f.content, true⟩).1)
        (files ++ [⟨pp ++ "/" ++ f.name, f.content, true⟩]) := rfl

/-- A download without overwrite leaves every existing file unchanged. -/
theorem download_noclobber_preserves (pp : String) (fs : List ProjectFile) :
    ∀ (d : Disk) (files : List QCProjectFile) (p : String), (d p).isSome →
      (downloadProjectFiles pp fs false d files).1 p = d p := by
  induction fs with
  | nil => intro d files p _; rfl
  | cons f fs ih =>
    intro d files p hp
    rw [downloadProjectFiles_cons]
    simp only [Bool.false_eq_true, if_false]
    by_cases hex : (d (pp ++ "/" ++ f.name)).isSome
    · have hst : (createFile d ⟨pp ++ "/" ++ f.name, f.content, true⟩).1 = d := by
        simp [createFile, hex]
      rw [hst]
      exact ih d _ p hp
    · have hne : p ≠ pp ++ "/" ++ f.name := fun h => hex (h ▸ hp)
      have hst : (createFile d ⟨pp ++ "/" ++ f.name, f.content, true⟩).1
          = diskWrite d (pp ++ "/" ++ f.name) f.content := by
        simp [createFile, hex]
      rw [hst]
      have hsame : diskWrite d (pp ++ "/" ++ f.name) f.content p = d p :=
        diskWrite_other d _ hne
      rw [ih _ _ p (by rw [hsame]; exact hp), hsame]

/-- A download, in either mode, writes only under the names of the
downloaded files. -/
theorem download_preserves_other (pp : String) (fs : List ProjectFile) :
    ∀ (ow : Bool) (d : Disk) (files : List QCProjectFile) (p : String),
      (∀ g ∈ fs, pp ++ "/" ++ g.name ≠ p) →
      (downloadProjectFiles pp fs ow d files).1 p = d p := by
  induction fs with
  | nil => intro ow d files p _; rfl
  | cons f fs ih =>
    intro ow d files p hno
    rw [downloadProjectFiles_cons]
    have hf : pp ++ "/" ++ f.name ≠ p := hno f (by simp)
    have hrest : ∀ g ∈ fs, pp ++ "/" ++ g.name ≠ p := fun g hg => hno g (by simp [hg])
    have hstep : (if ow then createFileOverwrite d ⟨pp ++ "/" ++ f.name, f.content, true⟩
        else (createFile d ⟨pp ++ "/" ++ f.name, f.content, true⟩).1) p = d p := by
      cases ow
      · simp only [Bool.false_eq_true, if_false]
        by_cases hex : (d (pp ++ "/" ++ f.name)).isSome
        · simp [createFile, hex]
        · simp [createFile, hex, diskWrite, Ne.symm hf]
      · simp [createFileOverwrite, diskWrite, Ne.symm hf]
    rw [ih ow _ _ p hrest, hstep]

/-- A download with overwrite ends with the remote content on disk for a
file whose name is not repeated later in the response. -/
theorem download_overwrite_writes (pp : String) (f : ProjectFile) :
    ∀ (fs₁ fs₂ : List ProjectFile) (d : Disk) (files : List QCProjectFile),
      (∀ g ∈ fs₂, pp ++ "/" ++ g.name ≠ pp ++ "/" ++ f.name) →
      (downloadProjectFiles pp (fs₁ ++ f :: fs₂) true d files).1 (pp ++ "/" ++ f.name)
        = some f.content := by
  intro fs₁
  induction fs₁ with
  | nil =>
    intro fs₂ d files hrest
    rw [List.nil_append, downloadProjectFiles_cons]
    simp only [if_true]
    rw [download_preserves_other pp fs₂ true _ _ _ hrest]
    exact diskWrite_same d _ _
  | cons g fs₁ ih =>
    intro fs₂ d files hrest
    rw [List.cons_append, downloadProjectFiles_cons]
    exact ih fs₂ _ _ hrest

/-- The file list after a download is the old list followed by one entry
per remote file, carrying the remote content with the synced flag set. -/
theorem download_files_eq (pp : String) (fs : List ProjectFile) :
    ∀ (ow : Bool) (d : Disk) (files : List QCProjectFile),
      (downloadProjectFiles pp fs ow d files).2
        = files ++ fs.map (fun f => ⟨pp ++ "/" ++ f.name, f.content, true⟩) := by
  induction fs with
  | nil => intro ow d files; simp [downloadProjectFiles]
  | cons f fs ih =>
    intro ow d files
    rw [downloadProjectFiles_cons, ih]
    simp

/- ## Claims -/

/-- C10: project-name normalization is idempotent, and re-normalizing a
name never changes the derived directory path. -/
theorem c10_normalize_idempotent (s : String) (root : String) :
    normalizeProjectName (normalizeProjectName s) = normalizeProjectName s ∧
    projectPathFor root false (normalizeProjectName s) = projectPathFor root false s := by
  have h : normalizeProjectName (normalizeProjectName s) = normalizeProjectName s :=
    congrArg String.mk (filter_idem isAllowedProjectChar s.data)
  refine ⟨h, ?_⟩
  simp only [projectPathFor, Bool.false_eq_true, if_false]
  rw [h]

/-- C2: normalization keeps exactly the characters of the class
letters, digits, underscore, space, dot and hyphen, in order; a name
normalizing to the empty string makes project construction fail before
any directory or binding is created; and the mixed example normalizes as
the spec says. -/
theorem c2_normalizeProjectName_spec (s : String) :
    List.Sublist (normalizeProjectName s).data s.data ∧
    (∀ c ∈ (normalizeProjectName s).data, isAllowedProjectChar c = true) ∧
    (∀ c, isAllowedProjectChar c = true →
      (normalizeProjectName s).data.count c = s.data.count c) ∧
    (∀ c, isAllowedProjectChar c = false → (normalizeProjectName s).data.count c = 0) ∧
    (normalizeProjectName s = "" → ∀ (root : String) (workspaceAsRootPath : Bool),
      initProject root workspaceAsRootPath s
        = .error "The project name you provided only contains special characters and can not be initialized") ∧
    normalizeProjectName "My Algo #1!" = "My Algo 1" := by
  refine ⟨List.filter_sublist _, ?_, ?_, ?_, ?_, by decide⟩
  · intro c hc
    exact List.of_mem_filter hc
  · intro c hc
    simp [normalizeProjectName, List.count_filter, hc]
  · intro c hc
    refine List.count_eq_zero.mpr fun hmem => ?_
    have := List.of_mem_filter hmem
    rw [hc] at this
    exact Bool.false_ne_true this
  · intro h root workspaceAsRootPath
    simp [initProject, h]

/-- Witness for C2 at the concrete all-special name. -/
theorem c2_normalizeProjectName_spec_witness :
    initProject "/ws" false "!!!"
      = .error "The project name you provided only contains special characters and can not be initialized" :=
  (c2_normalizeProjectName_spec "!!!").2.2.2.2.1 (by decide) "/ws" false

end LeanVSCode

namespace LeanVSCode

/-- C9 counterexample: at a concrete key, user id, digest function and
clock value, the Authorization header is the base64 credential behind
the Basic scheme marker, so it is not equal to the bare base64 encoding
the claim states. -/
theorem c9_authorization_counterexample :
    (requestHeaders c9hash "k" "u" 1905).authorization = "Basic dTpo" ∧
    base64Encode (strBytes ("u" ++ ":" ++ c9hash ("k" ++ ":" ++ Nat.repr (getTimestamp 1905)))) = "dTpo" ∧
    (requestHeaders c9hash "k" "u" 1905).timestamp = "1" ∧
    ("Basic dTpo" : String) ≠ "dTpo" :=
  ⟨rfl, rfl, rfl, by decide⟩

/-- C9 amended: every request built at clock value nowMs carries an
Authorization header equal to the string Basic followed by a space and
the base64 encoding of userId, a colon, and the hex digest of the
literal concatenation of the API key, a colon and the decimal Unix
timestamp in seconds (floored millisecond clock, so no padding and no
fractional component); the Timestamp header is exactly that same
timestamp string, freshly derived from the clock value of the request. -/
theorem c9_request_headers_amended (sha256hex : String → String) (apiKey userId : String)
    (nowMs : Nat) :
    getTimestamp nowMs = nowMs / 1000 ∧
    (requestHeaders sha256hex apiKey userId nowMs).timestamp = Nat.repr (getTimestamp nowMs) ∧
    (requestHeaders sha256hex apiKey userId nowMs).authorization
      = "Basic " ++ base64Encode (strBytes (userId ++ ":" ++
          sha256hex (apiKey ++ ":" ++ Nat.repr (getTimestamp nowMs)))) :=
  ⟨rfl, rfl, rfl⟩

/-- C8 counterexample: registering a binding whose local path is already
registered does not fail; it appends a second binding with the same
path, so the path no longer identifies at most one binding. -/
theorem c8_register_duplicate_counterexample :
    initProject "/ws" false "X" = .ok c8Binding ∧
    registerProject (registerProject [] c8Binding) c8Binding = [c8Binding, c8Binding] ∧
    (registerProject (registerProject [] c8Binding) c8Binding).countP
      (fun p => p.projectPath == "/ws/X") = 2 :=
  ⟨rfl, rfl, by decide⟩

/-- C8 amended: registration appends unconditionally and never fails:
the registry grows by one entry, the count of bindings carrying the new
binding's path grows by one (so duplicates accumulate), and any two
downloads of the same name into the same workspace derive the same local
path, making duplicate paths reachable. -/
theorem c8_register_amended (reg : List QCAlgorithmProject) (b : QCAlgorithmProject) :
    (registerProject reg b).length = reg.length + 1 ∧
    (registerProject reg b).countP (fun p => p.projectPath == b.projectPath)
      = reg.countP (fun p => p.projectPath == b.projectPath) + 1 ∧
    b ∈ registerProject reg b ∧
    (∀ (root name : String) (b' : QCAlgorithmProject),
      initProject root false name = .ok b' →
      b'.projectPath = root ++ "/" ++ normalizeProjectName name) := by
  refine ⟨by simp [registerProject], ?_, by simp [registerProject], ?_⟩
  · simp [registerProject, List.countP_append, List.countP_cons]
  · intro root name b' h
    simp only [initProject, projectPathFor, Bool.false_eq_true, if_false] at h
    split at h
    · exact absurd h (by simp)
    · rw [← Except.ok.inj h]

/-- Witness for C8 at the concrete binding for project X. -/
theorem c8_register_amended_witness :
    c8Binding.projectPath = "/ws" ++ "/" ++ normalizeProjectName "X" ∧
    (registerProject [c8Binding] c8Binding).countP
      (fun p => p.projectPath == c8Binding.projectPath)
      = ([c8Binding].countP fun p => p.projectPath == c8Binding.projectPath) + 1 :=
  ⟨(c8_register_amended [] c8Binding).2.2.2 "/ws" "X" c8Binding rfl,
   (c8_register_amended [c8Binding] c8Binding).2.1⟩

/-- C3: a download without overwrite leaves every existing local file
unchanged; a download with overwrite ends with the remote content on
disk; and the absence of a response to the disposition prompt, like the
Skip answer, selects the non-overwrite mode. -/
theorem c3_download_disposition_spec (pp : String) (fs : List ProjectFile) (d : Disk)
    (files : List QCProjectFile) (p : String) :
    ((d p).isSome → (downloadProjectFiles pp fs false d files).1 p = d p) ∧
    (∀ (f : ProjectFile) (fs₁ fs₂ : List ProjectFile), fs = fs₁ ++ f :: fs₂ →
      (∀ g ∈ fs₂, pp ++ "/" ++ g.name ≠ pp ++ "/" ++ f.name) →
      (downloadProjectFiles pp fs true d files).1 (pp ++ "/" ++ f.name) = some f.content) ∧
    overwriteDisposition none = false ∧
    overwriteDisposition (some "Skip") = false ∧
    overwriteDisposition (some "Overwrite") = true := by
  refine ⟨fun hp => download_noclobber_preserves pp fs d files p hp, ?_, rfl, by decide, by decide⟩
  intro f fs₁ fs₂ hsplit hrest
  subst hsplit
  exact download_overwrite_writes pp f fs₁ fs₂ d files hrest

/-- Witness for C3 at the concrete one-file download with differing
local and remote contents. -/
theorem c3_download_disposition_spec_witness :
    (downloadProjectFiles "proj" sampleRemoteFiles false sampleDisk []).1 "proj/main.py" = some "A" ∧
    (downloadProjectFiles "proj" sampleRemoteFiles true sampleDisk []).1 "proj/main.py" = some "B" := by
  have h := c3_download_disposition_spec "proj" sampleRemoteFiles sampleDisk [] "proj/main.py"
  constructor
  · have h1 := h.1 (by rfl)
    simpa [sampleDisk] using h1
  · have h2 := h.2.1 ⟨"main.py", "B"⟩ [] [] rfl (by simp)
    simpa using h2

end LeanVSCode

namespace LeanVSCode

/-- Saving a file whose path is absent from disk fails at the reload. -/
theorem saveFileToCloud_none (skipDialog : Bool) (selection : Option String)
    (success : Bool) (errors : List String) (d remote : Disk) (f : QCProjectFile)
    (hc : d f.filePath = none) :
    saveFileToCloud skipDialog selection success errors d remote f = none := by
  simp [saveFileToCloud, reloadFileFromDisk, hc]

/-- Saving a file present on disk reloads it and uploads exactly when
the dialog is skipped or the user answered Yes. -/
theorem saveFileToCloud_cases (skipDialog : Bool) (selection : Option String)
    (success : Bool) (errors : List String) (d remote : Disk) (f : QCProjectFile)
    (c : String) (hc : d f.filePath = some c) :
    saveFileToCloud skipDialog selection success errors d remote f =
      some (if skipDialog = true ∨ selection = some "Yes"
            then uploadStep success errors remote { f with content := c }
            else ⟨{ f with content := c }, remote, none, none⟩) := by
  have hreload : reloadFileFromDisk d f = some { f with content := c } := by
    simp [reloadFileFromDisk, hc]
  simp only [saveFileToCloud, hreload, Option.map_some']
  congr 1
  by_cases h1 : skipDialog = true
  · subst h1; simp
  · have h1' : skipDialog = false := by
      cases skipDialog
      · rfl
      · exact absurd rfl h1
    subst h1'
    by_cases h2 : selection = some "Yes" <;> simp [h2]

/-- The upload continuation issues the request with the current content,
on success marks the file synced and the remote confirmed with that
content, and on failure returns the file untouched with the error list. -/
theorem uploadStep_spec (success : Bool) (errors : List String) (remote : Disk)
    (pf : QCProjectFile) :
    (success = true → (uploadStep success errors remote pf).file = { pf with synced := true } ∧
      (uploadStep success errors remote pf).remote (basename pf.filePath) = some pf.content ∧
      (uploadStep success errors remote pf).surfaced = none) ∧
    (success = false → uploadStep success errors remote pf = ⟨pf, remote, some pf.content, some errors⟩) ∧
    (uploadStep success errors remote pf).uploaded = some pf.content := by
  cases success
  · exact ⟨fun h => Bool.noConfusion h, fun _ => rfl, rfl⟩
  · exact ⟨fun _ => ⟨rfl, diskWrite_same _ _ _, rfl⟩, fun h => Bool.noConfusion h, rfl⟩

/-- C5: saving a file first reloads it from disk and then issues the
remote write whenever the dialog is skipped or confirmed, with no
diffing against the previous content or sync state; on a success
response the synced flag is set, on a failure response the server's
error list is surfaced and the flag is untouched; without skip and
without a Yes answer no request is issued. -/
theorem c5_saveFileToCloud_spec (skipDialog : Bool) (selection : Option String)
    (success : Bool) (errors : List String) (d remote : Disk) (f : QCProjectFile)
    (c : String) (hc : d f.filePath = some c) :
    ∃ r, saveFileToCloud skipDialog selection success errors d remote f = some r ∧
      ((skipDialog = true ∨ selection = some "Yes") →
        r.uploaded = some c ∧
        (success = true → r.file.synced = true ∧ r.surfaced = none) ∧
        (success = false → r.file.synced = f.synced ∧ r.surfaced = some errors)) ∧
      (skipDialog = false → selection ≠ some "Yes" →
        r.uploaded = none ∧ r.file.synced = f.synced ∧ r.file.content = c) := by
  rw [saveFileToCloud_cases skipDialog selection success errors d remote f c hc]
  by_cases hcond : skipDialog = true ∨ selection = some "Yes"
  · rw [if_pos hcond]
    obtain ⟨hT, hF, hU⟩ := uploadStep_spec success errors remote { f with content := c }
    refine ⟨_, rfl, fun _ => ⟨hU, ?_, ?_⟩, fun h1 h2 => ?_⟩
    · intro hs
      obtain ⟨hfile, _, hsur⟩ := hT hs
      rw [hfile]
      exact ⟨rfl, hsur⟩
    · intro hs
      rw [hF hs]
      exact ⟨rfl, rfl⟩
    · rcases hcond with h | h
      · rw [h1] at h
        exact absurd h (by simp)
      · exact absurd h h2
  · rw [if_neg hcond]
    refine ⟨_, rfl, fun h => absurd h hcond, fun _ _ => ⟨rfl, rfl, rfl⟩⟩

/-- Witness for C5: the silent successful save of a file whose content
equals both its disk copy and its remote copy still issues the request
and keeps the flag set. -/
theorem c5_saveFileToCloud_spec_witness :
    saveFileToCloud true none true [] sampleDisk sampleRemoteStoreA c5File = some c5Result ∧
    c5Result.uploaded = some "A" ∧
    c5Result.file.synced = true ∧
    c5File.content = "A" ∧ c5File.synced = true ∧ sampleRemoteStoreA "main.py" = some "A" := by
  obtain ⟨r, hr, hup, _⟩ :=
    c5_saveFileToCloud_spec true none true [] sampleDisk sampleRemoteStoreA c5File "A" rfl
  have hr0 : saveFileToCloud true none true [] sampleDisk sampleRemoteStoreA c5File
      = some c5Result := rfl
  rw [hr] at hr0
  have heq := Option.some.inj hr0
  subst heq
  exact ⟨hr, (hup (Or.inl rfl)).1, ((hup (Or.inl rfl)).2.1 rfl).1, rfl, rfl, rfl⟩

/-- C4 counterexample: after a non-overwrite download of a file whose
local copy differs from the remote copy, reloading the file from disk
replaces the in-memory content while leaving the synced flag set, so the
flag is true with content the remote store never confirmed. -/
theorem c4_sync_flag_counterexample :
    (downloadProjectFiles "proj" sampleRemoteFiles false sampleDisk []).2 = [sampleFile] ∧
    syncInvariant sampleRemoteStore sampleFile ∧
    reloadFileFromDisk (downloadProjectFiles "proj" sampleRemoteFiles false sampleDisk []).1
      sampleFile = some ⟨"proj/main.py", "A", true⟩ ∧
    (⟨"proj/main.py", "A", true⟩ : QCProjectFile).synced = true ∧
    sampleRemoteStore (basename "proj/main.py") = some "B" ∧
    ¬ syncInvariant sampleRemoteStore ⟨"proj/main.py", "A", true⟩ := by
  refine ⟨rfl, fun _ => rfl, rfl, rfl, rfl, fun h => ?_⟩
  have hBA : ("B" : String) = "A" :=
    Option.some.inj ((show sampleRemoteStore (basename "proj/main.py") = some "B" from rfl).symm.trans (h rfl))
  exact absurd hBA (by decide)

/-- C4 amended: download marks files synced only with the content the
remote just supplied, a save sets the flag only on a success response
and then the remote store holds exactly the in-memory content, and a
failed or withheld save leaves the flag unchanged; but reloading from
disk replaces the in-memory content while leaving the flag untouched, so
the flag can stay true over unconfirmed content. -/
theorem c4_sync_flag_amended (pp : String) (fs : List ProjectFile) (ow : Bool)
    (d : Disk) (files : List QCProjectFile) :
    ((downloadProjectFiles pp fs ow d files).2
        = files ++ fs.map (fun f => ⟨pp ++ "/" ++ f.name, f.content, true⟩)) ∧
    (∀ (skipDialog : Bool) (selection : Option String) (success : Bool)
        (errors : List String) (remote : Disk) (f : QCProjectFile) (r : SaveResult),
      saveFileToCloud skipDialog selection success errors d remote f = some r →
        (success = true → r.uploaded.isSome →
          r.file.synced = true ∧ r.remote (basename r.file.filePath) = some r.file.content) ∧
        (success = false → r.file.synced = f.synced) ∧
        (r.uploaded = none → r.file.synced = f.synced)) ∧
    (∀ (f f' : QCProjectFile), reloadFileFromDisk d f = some f' →
      f'.synced = f.synced ∧ f'.filePath = f.filePath ∧ d f.filePath = some f'.content) := by
  refine ⟨download_files_eq pp fs ow d files, ?_, ?_⟩
  · intro skipDialog selection success errors remote f r hr
    cases hd : d f.filePath with
    | none =>
      rw [saveFileToCloud_none skipDialog selection success errors d remote f hd] at hr
      exact absurd hr (by simp)
    | some c =>
      rw [saveFileToCloud_cases skipDialog selection success errors d remote f c hd] at hr
      have hr' := Option.some.inj hr
      obtain ⟨hT, hF, hU⟩ := uploadStep_spec success errors remote { f with content := c }
      by_cases hcond : skipDialog = true ∨ selection = some "Yes"
      · rw [if_pos hcond] at hr'
        subst hr'
        refine ⟨fun hs _ => ?_, fun hs => ?_, fun hnone => ?_⟩
        · obtain ⟨hfile, hrem, _⟩ := hT hs
          rw [hfile]
          exact ⟨rfl, hrem⟩
        · rw [hF hs]
        · rw [hU] at hnone
          exact absurd hnone (by simp)
      · rw [if_neg hcond] at hr'
        subst hr'
        exact ⟨fun _ hsome => absurd hsome (by simp), fun _ => rfl, fun _ => rfl⟩
  · intro f f' h
    cases hd : d f.filePath with
    | none => simp [reloadFileFromDisk, hd] at h
    | some c =>
      have hrel : reloadFileFromDisk d f = some { f with content := c } := by
        simp [reloadFileFromDisk, hd]
      rw [hrel] at h
      have heq := Option.some.inj h
      subst heq
      exact ⟨rfl, rfl, rfl⟩

/-- Witness for C4 at the concrete reload and the concrete successful
silent save. -/
theorem c4_sync_flag_amended_witness :
    ((⟨"proj/main.py", "A", true⟩ : QCProjectFile).synced = sampleFile.synced ∧
     (⟨"proj/main.py", "A", true⟩ : QCProjectFile).filePath = sampleFile.filePath ∧
     sampleDisk sampleFile.filePath = some "A") ∧
    c4SaveResult.file.synced = true ∧
    c4SaveResult.remote (basename c4SaveResult.file.filePath) = some c4SaveResult.file.content := by
  constructor
  · exact (c4_sync_flag_amended "proj" sampleRemoteFiles false sampleDisk []).2.2
      sampleFile ⟨"proj/main.py", "A", true⟩ rfl
  · exact ((c4_sync_flag_amended "proj" sampleRemoteFiles false sampleDisk []).2.1
      true none true [] sampleRemoteStore sampleFile c4SaveResult rfl).1 rfl rfl

end LeanVSCode

namespace LeanVSCode

/-- C7 counterexample: for a file nested two directory levels inside a
registered binding's directory, the open-project lookup returns none,
because it compares the binding's path with the file's immediate parent
directory rather than testing a prefix. -/
theorem c7_getOpenProject_counterexample :
    c7Doc.fileName = c7Binding.projectPath ++ "/sub/main.py" ∧
    c7Doc.isUntitled = false ∧
    parentDir c7Doc.fileName = "/ws/proj/sub" ∧
    c7Binding.projectPath = "/ws/proj" ∧
    getOpenProject (some c7Doc) [c7Binding] = none :=
  ⟨rfl, rfl, rfl, rfl, rfl⟩

/-- C7 amended: the open-project lookup returns the first registered
binding whose local path equals the active file's immediate parent
directory, so a file directly inside a binding's directory resolves to a
binding with that path while any path whose parent directory matches no
registered binding (including deeper nesting) resolves to none; the
open-file lookup matches by exact path equality; and both lookups return
none when no editor file is active or the active file is untitled. -/
theorem c7_open_lookup_amended (ps : List QCAlgorithmProject) (doc : Document) :
    getOpenProject none ps = none ∧
    (doc.isUntitled = true → getOpenProject (some doc) ps = none) ∧
    ((∀ p ∈ ps, p.projectPath ≠ parentDir doc.fileName) →
      getOpenProject (some doc) ps = none) ∧
    (doc.isUntitled = false → ∀ p ∈ ps, p.projectPath = parentDir doc.fileName →
      ∃ q, getOpenProject (some doc) ps = some q ∧ q.projectPath = parentDir doc.fileName) ∧
    (∀ (pr : Option QCAlgorithmProject) (f : QCProjectFile),
      getOpenFile pr (some doc) = some f →
      f.filePath = doc.fileName ∧ ∃ p, pr = some p ∧ f ∈ p.files) ∧
    (∀ (pr : Option QCAlgorithmProject), getOpenFile pr none = none) ∧
    getOpenFile none (some doc) = none := by
  refine ⟨rfl, ?_, ?_, ?_, ?_, ?_, rfl⟩
  · intro h
    simp [getOpenProject, h]
  · intro h
    simp only [getOpenProject]
    split
    · rfl
    · refine List.find?_eq_none.mpr fun p hp => ?_
      simpa using h p hp
  · intro hu p hp hpath
    simp only [getOpenProject, hu, Bool.false_eq_true, if_false]
    have hex : ∃ x, x ∈ ps ∧ (x.projectPath == parentDir doc.fileName) = true :=
      ⟨p, hp, by simp [hpath]⟩
    have hsome : (ps.find? fun project => project.projectPath == parentDir doc.fileName).isSome := by
      rw [List.find?_isSome]
      exact hex
    obtain ⟨q, hq⟩ := Option.isSome_iff_exists.mp hsome
    refine ⟨q, hq, ?_⟩
    have := List.find?_some hq
    simpa using this
  · intro pr f h
    cases pr with
    | none => simp [getOpenFile] at h
    | some p =>
      have h1 := List.find?_some h
      have h2 := List.mem_of_find?_eq_some h
      exact ⟨by simpa using h1, p, rfl, h2⟩
  · intro pr
    cases pr <;> rfl

/-- Witness for C7: the untitled, direct-child and outside cases at the
concrete registry. -/
theorem c7_open_lookup_amended_witness :
    getOpenProject (some c7UntitledDoc) [c7Binding] = none ∧
    getOpenProject (some c7OutsideDoc) [c7Binding] = none ∧
    (getOpenProject (some c7DirectDoc) [c7Binding]).isSome = true := by
  refine ⟨(c7_open_lookup_amended [c7Binding] c7UntitledDoc).2.1 rfl,
    (c7_open_lookup_amended [c7Binding] c7OutsideDoc).2.2.1 ?_, ?_⟩
  · intro p hp
    have : p = c7Binding := by simpa using hp
    subst this
    decide
  · obtain ⟨q, hq, _⟩ := (c7_open_lookup_amended [c7Binding] c7DirectDoc).2.2.2.1 rfl
      c7Binding (by simp) (by decide)
    rw [hq]
    rfl

end LeanVSCode


namespace LeanVSCode

/-- Resolution succeeds with a given project exactly when the selection
over the name matches returns it. -/
theorem resolveProject_ok_iff (projects : List Project) (n : String) (p : Project) :
    resolveProject projects n = .ok p ↔
      selectProject (projects.filter fun q => q.name == n) = some p := by
  unfold resolveProject
  cases h : selectProject (projects.filter fun q => q.name == n) <;> simp

/-- A successful selection is either the sole element of a singleton
list or the reduce over latestOf of a list of two or more. -/
theorem selectProject_eq_some (found : List Project) (p : Project)
    (h : selectProject found = some p) :
    found = [p] ∨ ∃ x xs, found = x :: xs ∧ xs ≠ [] ∧ p = xs.foldl latestOf x := by
  unfold selectProject at h
  cases found with
  | nil => simp at h
  | cons x xs =>
    cases xs with
    | nil =>
      left
      simp at h
      rw [h]
    | cons y ys =>
      right
      simp at h
      exact ⟨x, y :: ys, rfl, by simp, h.symm⟩

/-- The reduce over latestOf returns the first element of the list
(initial accumulator included) attaining the maximal modified timestamp:
the list decomposes around the result with strictly smaller timestamps
before it and no larger timestamp after it. -/
theorem foldl_latestOf_decomp (l : List Project) : ∀ (x : Project),
    ∃ l₁ l₂,
      x :: l = l₁ ++ (l.foldl latestOf x) :: l₂ ∧
      (∀ q ∈ l₁, q.modified < (l.foldl latestOf x).modified) ∧
      (∀ q ∈ l₂, q.modified ≤ (l.foldl latestOf x).modified) := by
  induction l with
  | nil =>
    intro x
    exact ⟨[], [], rfl, by simp, by simp⟩
  | cons c l ih =>
    intro x
    rw [List.foldl_cons]
    by_cases h : x.modified < c.modified
    · have hx : latestOf x c = c := by simp [latestOf, h]
      rw [hx]
      set r := l.foldl latestOf c with hr
      obtain ⟨l₁, l₂, hdec, hlt, hle⟩ := ih c
      rw [← hr] at hdec hlt hle
      have hcr : c.modified ≤ r.modified := by
        cases l₁ with
        | nil =>
          rw [List.nil_append] at hdec
          injection hdec with h1 _
          exact le_of_eq (congrArg Project.modified h1)
        | cons a l₁' =>
          rw [List.cons_append] at hdec
          injection hdec with h1 _
          have hm : c.modified = a.modified := congrArg Project.modified h1
          rw [hm]
          exact le_of_lt (hlt a (by simp))
      refine ⟨x :: l₁, l₂, ?_, ?_, hle⟩
      · rw [List.cons_append, ← hdec]
      · intro q hq
        rcases List.mem_cons.mp hq with hq | hq
        · rw [hq]
          exact lt_of_lt_of_le h hcr
        · exact hlt q hq
    · have hx : latestOf x c = x := by simp [latestOf, h]
      rw [hx]
      push_neg at h
      set r := l.foldl latestOf x with hr
      obtain ⟨l₁, l₂, hdec, hlt, hle⟩ := ih x
      rw [← hr] at hdec hlt hle
      cases l₁ with
      | nil =>
        rw [List.nil_append] at hdec
        injection hdec with h1 h2
        refine ⟨[], c :: l₂, ?_, by simp, ?_⟩
        · rw [List.nil_append, ← h1, ← h2]
        · intro q hq
          rcases List.mem_cons.mp hq with hq | hq
          · rw [hq]
            exact h.trans (le_of_eq (congrArg Project.modified h1))
          · exact hle q hq
      | cons a l₁' =>
        rw [List.cons_append] at hdec
        injection hdec with h1 h2
        have hxr : x.modified < r.modified := by
          have hm : x.modified = a.modified := congrArg Project.modified h1
          rw [hm]
          exact hlt a (by simp)
        refine ⟨x :: c :: l₁', l₂, ?_, ?_, hle⟩
        · rw [List.cons_append, List.cons_append, ← h2]
        · intro q hq
          rcases List.mem_cons.mp hq with hq | hq
          · rw [hq]
            exact hxr
          · rcases List.mem_cons.mp hq with hq' | hq'
            · rw [hq']
              exact lt_of_le_of_lt h hxr
            · exact hlt q (List.mem_cons_of_mem a hq')

end LeanVSCode

namespace LeanVSCode

/-- C1 amended: downloading by name considers exactly the projects whose
name equals the requested name character for character (resolution
depends only on the name matches); with no match the resolution fails
with an error instead of producing a project; a successful resolution
returns the first name match attaining the maximal modified timestamp
(matches listed before it are strictly older, matches listed after it
are no newer, so the first encountered wins ties); of two same-named
projects the more recently modified one wins; and for every valid name
the binding is registered synchronously, with the resolution outcome
merely riding alongside, so a failed resolution does not prevent
registration. -/
theorem c1_resolveProject_spec (projects : List Project) (projectName : String) :
    (projects.filter (fun p => p.name == projectName) = [] →
      resolveProject projects projectName
        = .error "Project is null even though we provided a valid project name") ∧
    (∀ p, resolveProject projects projectName = .ok p →
      ∃ l₁ l₂, projects.filter (fun q => q.name == projectName) = l₁ ++ p :: l₂ ∧
        p.name = projectName ∧
        (∀ q ∈ l₁, q.modified < p.modified) ∧
        (∀ q ∈ l₂, q.modified ≤ p.modified)) ∧
    (∀ (projects' : List Project),
      projects.filter (fun p => p.name == projectName)
        = projects'.filter (fun p => p.name == projectName) →
      resolveProject projects projectName = resolveProject projects' projectName) ∧
    (∀ (id1 id2 t1 t2 : Nat), t1 < t2 →
      resolveProject [⟨id1, projectName, t1⟩, ⟨id2, projectName, t2⟩] projectName
        = .ok ⟨id2, projectName, t2⟩) ∧
    (∀ (registry : List QCAlgorithmProject) (root : String),
      normalizeProjectName projectName ≠ "" →
      ∃ binding,
        downloadProjectByName registry root false projectName projects
          = .ok (registerProject registry binding, resolveProject projects projectName) ∧
        binding ∈ registerProject registry binding ∧
        binding.projectName = projectName) := by
  refine ⟨?_, ?_, ?_, ?_, ?_⟩
  · intro h
    simp [resolveProject, h, selectProject]
  · intro p hp
    have hsel := (resolveProject_ok_iff projects projectName p).mp hp
    rcases selectProject_eq_some _ p hsel with h1 | ⟨x, xs, heq, _, hfold⟩
    · refine ⟨[], [], by rw [h1, List.nil_append], ?_, by simp, by simp⟩
      have hpmem : p ∈ projects.filter (fun q => q.name == projectName) := by
        rw [h1]
        simp
      simpa using List.of_mem_filter hpmem
    · obtain ⟨l₁, l₂, hdec, hlt, hle⟩ := foldl_latestOf_decomp xs x
      rw [← hfold] at hdec hlt hle
      refine ⟨l₁, l₂, by rw [heq, hdec], ?_, hlt, hle⟩
      have hpmem : p ∈ projects.filter (fun q => q.name == projectName) := by
        rw [heq, hdec]
        exact List.mem_append.mpr (Or.inr (by simp))
      simpa using List.of_mem_filter hpmem
  · intro projects' h
    unfold resolveProject
    rw [h]
  · intro id1 id2 t1 t2 ht
    apply (resolveProject_ok_iff _ _ _).mpr
    have hfil : (([⟨id1, projectName, t1⟩, ⟨id2, projectName, t2⟩] :
        List Project).filter fun q => q.name == projectName)
        = [⟨id1, projectName, t1⟩, ⟨id2, projectName, t2⟩] := by
      simp [List.filter]
    rw [hfil]
    simp [selectProject, latestOf, ht]
  · intro registry root hname
    refine ⟨⟨projectPathFor root false projectName, projectName, []⟩, ?_, by
      simp [registerProject], rfl⟩
    unfold downloadProjectByName initProject
    rw [if_neg hname]
    rfl

/-- C1 counterexample: with a remote listing in which zero projects
match the requested name, the download operation still registers the
binding — the push into the registry happens synchronously while the
resolution error is only surfaced later — so the operation does not fail
instead of registering a binding. -/
theorem c1_registration_counterexample :
    ([] : List Project).filter (fun p => p.name == "X") = [] ∧
    downloadProjectByName [] "/ws" false "X" ([] : List Project)
      = .ok ([(⟨"/ws/X", "X", []⟩ : QCAlgorithmProject)],
          .error "Project is null even though we provided a valid project name") ∧
    (⟨"/ws/X", "X", []⟩ : QCAlgorithmProject)
      ∈ [(⟨"/ws/X", "X", []⟩ : QCAlgorithmProject)] :=
  ⟨rfl, rfl, by simp⟩

/-- Witness for C1 at the spec's concrete collision scenario, the empty
remote listing, and the synchronous registration. -/
theorem c1_resolveProject_spec_witness :
    resolveProject [⟨1, "X", 5⟩, ⟨2, "X", 9⟩] "X" = .ok ⟨2, "X", 9⟩ ∧
    resolveProject ([] : List Project) "X"
      = .error "Project is null even though we provided a valid project name" ∧
    downloadProjectByName [] "/ws" false "X" ([] : List Project)
      = .ok ([(⟨"/ws/X", "X", []⟩ : QCAlgorithmProject)],
          resolveProject ([] : List Project) "X") := by
  refine ⟨(c1_resolveProject_spec [] "X").2.2.2.1 1 2 5 9 (by omega),
    (c1_resolveProject_spec [] "X").1 rfl, ?_⟩
  obtain ⟨binding, hb, hmem, hname⟩ :=
    (c1_resolveProject_spec ([] : List Project) "X").2.2.2.2 [] "/ws" (by decide)
  have h0 : downloadProjectByName [] "/ws" false "X" ([] : List Project)
      = .ok ([(⟨"/ws/X", "X", []⟩ : QCAlgorithmProject)],
          resolveProject ([] : List Project) "X") := rfl
  exact h0

end LeanVSCode

namespace LeanVSCode

/-- Full characterization of the disambiguation loop from any starting
counter between 1 and 21: it returns the first free suffix index up to
21 and fails exactly when every suffix up to 21 is occupied. -/
theorem searchFromSuffix_spec (existsDir : String → Bool) (base : String) :
    ∀ (n i : Nat), i + n = 21 → 1 ≤ i →
      ((∀ k, searchFromSuffix existsDir base i = .ok k ↔
          (i ≤ k ∧ k ≤ 21 ∧ existsDir (suffixPath base k) = false ∧
           ∀ j, i ≤ j → j < k → existsDir (suffixPath base j) = true)) ∧
       (searchFromSuffix existsDir base i = .error occupiedError ↔
          ∀ j, i ≤ j → j ≤ 21 → existsDir (suffixPath base j) = true)) := by
  intro n
  induction n with
  | zero =>
    intro i hi _
    have h21 : i = 21 := by omega
    subst h21
    by_cases hex : existsDir (suffixPath base 21) = true
    · have herr : searchFromSuffix existsDir base 21 = .error occupiedError := by
        rw [searchFromSuffix, if_pos hex, if_pos (by omega : 21 > 20)]
      constructor
      · intro k
        rw [herr]
        constructor
        · intro hk
          exact absurd hk (by simp)
        · rintro ⟨hik, hk21, hkf, _⟩
          have hk : k = 21 := by omega
          rw [hk] at hkf
          rw [hkf] at hex
          exact absurd hex (by simp)
      · rw [herr]
        constructor
        · intro _ j hj1 hj2
          have hj : j = 21 := by omega
          rw [hj]
          exact hex
        · intro _
          rfl
    · have hexf : existsDir (suffixPath base 21) = false := by
        cases hh : existsDir (suffixPath base 21)
        · rfl
        · exact absurd hh hex
      have hok : searchFromSuffix existsDir base 21 = .ok 21 := by
        rw [searchFromSuffix, hexf]
        simp
      constructor
      · intro k
        rw [hok]
        constructor
        · intro hk
          have hk' := Except.ok.inj hk
          subst hk'
          exact ⟨le_refl _, le_refl _, hexf, fun j hj1 hj2 => absurd hj2 (by omega)⟩
        · rintro ⟨hik, hk21, _, _⟩
          have : k = 21 := by omega
          rw [this]
      · rw [hok]
        constructor
        · intro hk
          exact absurd hk (by simp)
        · intro hall
          have h21x := hall 21 (le_refl _) (le_refl _)
          rw [hexf] at h21x
          exact absurd h21x (by simp)
  | succ n ih =>
    intro i hi h1
    have hnot : ¬ i > 20 := by omega
    obtain ⟨ihOk, ihErr⟩ := ih (i + 1) (by omega) (by omega)
    by_cases hex : existsDir (suffixPath base i) = true
    · have hunf : searchFromSuffix existsDir base i = searchFromSuffix existsDir base (i + 1) := by
        conv_lhs => rw [searchFromSuffix]
        rw [if_pos hex, if_neg hnot]
      rw [hunf]
      constructor
      · intro k
        rw [ihOk k]
        constructor
        · rintro ⟨ha, hb, hc, hd⟩
          refine ⟨by omega, hb, hc, fun j hj1 hj2 => ?_⟩
          by_cases hji : j = i
          · rw [hji]
            exact hex
          · exact hd j (by omega) hj2
        · rintro ⟨ha, hb, hc, hd⟩
          have hki : k ≠ i := by
            intro hiq
            rw [hiq] at hc
            rw [hc] at hex
            exact absurd hex (by simp)
          exact ⟨by omega, hb, hc, fun j hj1 hj2 => hd j (by omega) hj2⟩
      · rw [ihErr]
        constructor
        · intro hall j hj1 hj2
          by_cases hji : j = i
          · rw [hji]
            exact hex
          · exact hall j (by omega) hj2
        · intro hall j hj1 hj2
          exact hall j (by omega) hj2
    · have hexf : existsDir (suffixPath base i) = false := by
        cases hh : existsDir (suffixPath base i)
        · rfl
        · exact absurd hh hex
      have hok : searchFromSuffix existsDir base i = .ok i := by
        rw [searchFromSuffix, hexf]
        simp
      constructor
      · intro k
        rw [hok]
        constructor
        · intro hk
          have hk' := Except.ok.inj hk
          subst hk'
          exact ⟨le_refl _, by omega, hexf, fun j hj1 hj2 => absurd hj2 (by omega)⟩
        · rintro ⟨ha, hb, hc, hd⟩
          by_cases hki : k = i
          · rw [hki]
          · have hik : i < k := by omega
            have hdi := hd i (le_refl _) hik
            rw [hexf] at hdi
            exact absurd hdi (by simp)
      · rw [hok]
        constructor
        · intro hk
          exact absurd hk (by simp)
        · intro hall
          have hix := hall i (le_refl _) (by omega)
          rw [hexf] at hix
          exact absurd hix (by simp)

end LeanVSCode

namespace LeanVSCode

/-- C6 amended: a free directory is kept as is; an occupied directory is
disambiguated to the smallest numeric suffix between 1 and 21 whose
directory does not exist, with every smaller suffix occupied; the
directory-exhausted error is raised exactly when the suffixes 1 through
21 are all occupied, because the loop throws only once the counter
exceeds 20 with the suffixed directory still existing, which permits a
21st attempt. -/
theorem c6_disambiguation_amended (existsDir : String → Bool) (projectPath : String) :
    (existsDir projectPath = false → resolveProjectPath existsDir projectPath = .ok projectPath) ∧
    (existsDir projectPath = true → ∀ s,
      (resolveProjectPath existsDir projectPath = .ok s ↔
        ∃ i, 1 ≤ i ∧ i ≤ 21 ∧ s = suffixPath projectPath i ∧
          existsDir (suffixPath projectPath i) = false ∧
          ∀ j, 1 ≤ j → j < i → existsDir (suffixPath projectPath j) = true)) ∧
    (existsDir projectPath = true →
      (resolveProjectPath existsDir projectPath = .error occupiedError ↔
        ∀ j, 1 ≤ j → j ≤ 21 → existsDir (suffixPath projectPath j) = true)) := by
  obtain ⟨hok, herr⟩ := searchFromSuffix_spec existsDir projectPath 20 1 (by omega) (by omega)
  refine ⟨?_, ?_, ?_⟩
  · intro h
    simp [resolveProjectPath, h]
  · intro h s
    unfold resolveProjectPath
    rw [if_pos h, except_map_ok]
    constructor
    · rintro ⟨i, hi, hmap⟩
      obtain ⟨h1i, h21, hf, hall⟩ := (hok i).mp hi
      exact ⟨i, h1i, h21, hmap.symm, hf, hall⟩
    · rintro ⟨i, h1i, h21, hs, hf, hall⟩
      exact ⟨i, (hok i).mpr ⟨h1i, h21, hf, hall⟩, hs.symm⟩
  · intro h
    unfold resolveProjectPath
    rw [if_pos h, except_map_error]
    exact herr

/-- C6 counterexample: with the base directory and the suffixes 1
through 20 all occupied but suffix 21 free, the code succeeds with the
21st attempt instead of failing after 20 attempts as the claim
states. -/
theorem c6_disambiguation_counterexample :
    ((List.range 20).all fun j => exOccupied (suffixPath "foo" (j + 1))) = true ∧
    exOccupied (suffixPath "foo" 21) = false ∧
    exOccupied "foo" = true ∧
    resolveProjectPath exOccupied "foo" = .ok (suffixPath "foo" 21) := by
  refine ⟨by decide, by decide, by decide, ?_⟩
  obtain ⟨hok, _⟩ := searchFromSuffix_spec exOccupied "foo" 20 1 (by omega) (by omega)
  have hsearch : searchFromSuffix exOccupied "foo" 1 = .ok 21 := by
    refine (hok 21).mpr ⟨by omega, by omega, by decide, ?_⟩
    intro j hj1 hj2
    interval_cases j <;> decide
  unfold resolveProjectPath
  rw [if_pos (by decide : exOccupied "foo" = true), hsearch]
  rfl

/-- Witness for C6 at the spec's concrete example: foo and foo_1 taken,
foo_2 free, so project foo lands in foo_2. -/
theorem c6_disambiguation_amended_witness :
    exFoo "foo" = true ∧
    resolveProjectPath exFoo "foo" = .ok (suffixPath "foo" 2) := by
  refine ⟨by decide, ?_⟩
  refine ((c6_disambiguation_amended exFoo "foo").2.1 (by decide) (suffixPath "foo" 2)).mpr ?_
  refine ⟨2, by omega, by omega, rfl, by decide, ?_⟩
  intro j hj1 hj2
  interval_cases j
  decide

end LeanVSCode
